import Mathlib

/-!
Verification of the streaming + SSE core of the stream-axios repository
(src/core/stream.ts).  Strings are modelled as lists of characters;
JavaScript `String.prototype.split`, `slice`, `trim`, `startsWith` and
`parseInt` are embedded below with JS semantics.  The asynchronous stream
controller (`createStreamRequest`) is modelled as a deterministic trace
function over an environment that decides the outcome of each HTTP attempt,
with an optional cancellation instant counted in resolved awaits.
-/

namespace AxiosStream

/-- JS whitespace test used by `String.prototype.trim` (ASCII part). -/
def isJSWS (c : Char) : Bool :=
  c == ' ' || c == '\t' || c == '\n' || c == '\r' || c == '\x0b' || c == '\x0c'

/-- JS `String.prototype.trim`: remove whitespace at both ends. -/
def jsTrim (l : List Char) : List Char :=
  ((l.dropWhile isJSWS).reverse.dropWhile isJSWS).reverse

/-- Whether the list contains the two-character separator `"\n\n"`. -/
def containsNN : List Char → Bool
  | [] => false
  | [_] => false
  | a :: b :: rest => (a == '\n' && b == '\n') || containsNN (b :: rest)

/-- Push a character onto the first segment of a split result. -/
def consFst (a : Char) : List (List Char) → List (List Char)
  | [] => [[a]]
  | h :: t => (a :: h) :: t

/-- JS `s.split("\n\n")`: leftmost-first, non-overlapping matches. -/
def splitNN : List Char → List (List Char)
  | [] => [[]]
  | [c] => [[c]]
  | a :: b :: rest =>
    if a == '\n' && b == '\n' then [] :: splitNN rest
    else consFst a (splitNN (b :: rest))

/-- JS `s.split("\n")`. -/
def splitNL : List Char → List (List Char)
  | [] => [[]]
  | c :: rest => if c == '\n' then [] :: splitNL rest else consFst c (splitNL rest)

/-- JS `arr.join("\n")`. -/
def joinNL : List (List Char) → List Char
  | [] => []
  | [l] => l
  | l :: ls => l ++ '\n' :: joinNL ls

/-- Join segments back with the two-newline separator (used to relate
`splitNN` to its input). -/
def joinNN : List (List Char) → List Char
  | [] => []
  | [l] => l
  | l :: ls => l ++ '\n' :: '\n' :: joinNN ls

/-- Value of a leading run of decimal digits, JS `parseInt` style
(stops at the first non-digit). -/
def digitsVal : List Char → Nat → Nat
  | [], acc => acc
  | c :: rest, acc =>
    if c.isDigit then digitsVal rest (acc * 10 + (c.toNat - '0'.toNat)) else acc

/-- JS `parseInt(s, 10)` on a string with no leading whitespace and no sign:
`none` when the first character is not a digit (NaN). -/
def parseNatDec : List Char → Option Nat
  | [] => none
  | c :: rest => if c.isDigit then some (digitsVal (c :: rest) 0) else none

/-- JS `parseInt(s, 10)` (after trimming): optional sign then digits;
`none` models NaN. -/
def parseIntDec : List Char → Option Int
  | '-' :: r => (parseNatDec r).map (fun n => -(n : Int))
  | '+' :: r => (parseNatDec r).map (fun n => (n : Int))
  | r => (parseNatDec r).map (fun n => (n : Int))

/-- The `SSEEvent` interface of src/core/stream.ts: all fields optional. -/
structure SSEEvent where
  event : Option (List Char) := none
  data : Option (List Char) := none
  id : Option (List Char) := none
  retry : Option Int := none
deriving DecidableEq, Repr

def dataTag : List Char := "data:".data
def eventTag : List Char := "event:".data
def idTag : List Char := "id:".data
def retryTag : List Char := "retry:".data

/-- State of the line loop of `parseSSEEvent`: the partially built event
plus the accumulated `dataLines` array. -/
structure PState where
  ev : SSEEvent := {}
  dataLines : List (List Char) := []
deriving DecidableEq, Repr

/-- JS `content.startsWith(" ") ? content.slice(1) : content`. -/
def stripSpace (content : List Char) : List Char :=
  if content.head? = some ' ' then content.drop 1 else content

/-- One iteration of the `for (const line of lines)` loop of
`parseSSEEvent` (src/core/stream.ts): `data:`/`event:`/`id:`/`retry:`
prefixes in source order, everything else ignored. -/
def processLine (st : PState) (line : List Char) : PState :=
  if dataTag.isPrefixOf line then
    { st with dataLines := st.dataLines ++ [stripSpace (line.drop 5)] }
  else if eventTag.isPrefixOf line then
    { st with ev := { st.ev with event := some (jsTrim (line.drop 6)) } }
  else if idTag.isPrefixOf line then
    { st with ev := { st.ev with id := some (jsTrim (line.drop 3)) } }
  else if retryTag.isPrefixOf line then
    match parseIntDec (jsTrim (line.drop 6)) with
    | some n => { st with ev := { st.ev with retry := some n } }
    | none => st
  else st

/-- `Object.keys(result).length > 0 ? result : null`. -/
def finalizeKeys (ev : SSEEvent) : Option SSEEvent :=
  if ev.event.isSome || ev.data.isSome || ev.id.isSome || ev.retry.isSome then
    some ev
  else none

/-- Tail of `parseSSEEvent`: join the data lines if any, return the event
when at least one key was set, otherwise `null`. -/
def finalizeEvent (st : PState) : Option SSEEvent :=
  finalizeKeys (if st.dataLines.isEmpty then st.ev
    else { st.ev with data := some (joinNL st.dataLines) })

/-- `parseSSEEvent` applied to a list of lines (the body after
`eventBlock.split("\n")`). -/
def parseLinesEvent (lines : List (List Char)) : Option SSEEvent :=
  finalizeEvent (lines.foldl processLine {})

/-- `parseSSEEvent` of src/core/stream.ts. -/
def parseSSEEvent (eventBlock : List Char) : Option SSEEvent :=
  parseLinesEvent (splitNL eventBlock)

/-- Body of the `for (const eventBlock of events)` loop of
`parseSSEChunk`: the string handed to the callback for one block, if any
(`parsed?.data` truthy, i.e. a non-null event with non-empty data). -/
def chunkEmit (eventBlock : List Char) : Option (List Char) :=
  match parseSSEEvent eventBlock with
  | some ev =>
    match ev.data with
    | some d => if d.isEmpty then none else some d
    | none => none
  | none => none

/-- `parseSSEChunk` of src/core/stream.ts, as the ordered list of strings
the `onMessage` callback receives: split on `"\n\n"`, drop empty segments
(`filter(Boolean)`), parse each block, and emit `parsed.data` whenever it
is truthy. -/
def parseSSEChunk (sseText : List Char) : List (List Char) :=
  ((splitNN sseText).filter (fun s => !s.isEmpty)).filterMap chunkEmit

/-- The `for (const eventBlock of parts)` loop of the parser returned by
`createSSEParser`: skip blocks whose trim is empty, parse the (untrimmed)
block, emit the whole event when parsing yields one. -/
def processBlocks : List (List Char) → List SSEEvent
  | [] => []
  | blk :: rest =>
    if (jsTrim blk).isEmpty then processBlocks rest
    else
      match parseSSEEvent blk with
      | some ev => ev :: processBlocks rest
      | none => processBlocks rest

/-- One invocation of the stateful parser returned by `createSSEParser`:
append the chunk to the buffer, split on `"\n\n"`, keep the last segment
as the new buffer (`parts.pop() || ""` — `pop` of a `split` result is its
last element, and `"" || ""` is `""`), process the remaining segments.
Returns (new buffer, emitted events in order). -/
def sseFeed (buffer chunk : List Char) : List Char × List SSEEvent :=
  let parts := splitNN (buffer ++ chunk)
  (parts.getLastD [], processBlocks parts.dropLast)

/-- Feeding a sequence of chunks to one stateful parser instance, starting
from buffer `buf`: final buffer and concatenated event emissions. -/
def sseRun : List Char → List (List Char) → List Char × List SSEEvent
  | buf, [] => (buf, [])
  | buf, c :: cs =>
    let st := sseFeed buf c
    let rest := sseRun st.1 cs
    (rest.1, st.2 ++ rest.2)

/-! ## Stream controller (`createStreamRequest` of src/core/stream.ts)

The controller is asynchronous JS.  We model one session as a
deterministic trace over an environment: a list of `AttemptSpec`s gives
the outcome of each successive `instance({...})` call, and an optional
cancellation instant `cancelAt = some t` means the returned cancel
function was invoked while the `t`-th resolved await of the session
(`await instance`, `await setTimeout`, `await reader.read()`, counted
from 0) was still pending.  Aborting rejects a pending `instance` call
with a `CanceledError` and a pending `read` with an `AbortError`, per the
fetch adapter; a pending `setTimeout` still fires. -/

/-- Observable actions of one streaming session: an HTTP attempt being
issued, a retry delay, and the three user callbacks. -/
inductive Action where
  | request : Action
  | wait : Nat → Action
  | chunkOut : List Char → Action
  | completeOut : Action
  | errorOut : List Char → Action
deriving DecidableEq, Repr

/-- How the reader's chunk sequence ends: clean `done`, an abort-named
rejection (silent), or a read failure with a message. -/
inductive StreamEnd where
  | done : StreamEnd
  | readAbort : StreamEnd
  | readFail : List Char → StreamEnd
deriving DecidableEq, Repr

/-- A candidate readable stream: whether `getReader` is a function, and
the decoded chunks the reader yields before its end. -/
structure StreamObj where
  hasGetReader : Bool
  chunks : List (List Char)
  ending : StreamEnd
deriving DecidableEq, Repr

/-- Shape of the resolved response: truthiness of `response.data` and
`response.body`, and `response` itself when it has a `getReader`. -/
structure JSResp where
  dataField : Option StreamObj
  bodyField : Option StreamObj
  selfStream : Option StreamObj
deriving DecidableEq, Repr

/-- Environment outcome of one `instance({...})` call: a cancellation-
shaped rejection (`err.name === "CanceledError"` or
`err.code === "ERR_CANCELED"`), some other rejection with an optional
`err.message`, or a resolved response. -/
inductive AttemptSpec where
  | throwCanceled : AttemptSpec
  | throwErr : Option (List Char) → AttemptSpec
  | respond : JSResp → AttemptSpec
deriving DecidableEq, Repr

def cancelMsg : List Char := "Stream request cancelled manually".data

def notSupportedMsg : List Char :=
  "Browser does not support stream response, API did not return stream, or response was transformed incorrectly".data

def readFailHead : List Char := "Read stream failed: ".data

def defaultFailMsg : List Char := "Stream request failed".data

/-- `response.data || response.body || (response.getReader ? response : null)`. -/
def resolveStream (r : JSResp) : Option StreamObj :=
  match r.dataField with
  | some s => some s
  | none =>
    match r.bodyField with
    | some s => some s
    | none => r.selfStream

/-- What the body of `makeRequest`'s `try` does with one attempt outcome:
either the catch block sees a cancellation shape, or the catch block sees
an ordinary error with a message (a rejection, or the thrown
"stream not supported" error when no usable reader was resolved), or a
usable stream is obtained and pumping starts. -/
inductive Outcome where
  | canceledOutcome : Outcome
  | errOutcome : Option (List Char) → Outcome
  | streamOutcome : StreamObj → Outcome
deriving DecidableEq, Repr

def attemptOutcome : AttemptSpec → Outcome
  | .throwCanceled => .canceledOutcome
  | .throwErr m => .errOutcome m
  | .respond r =>
    match resolveStream r with
    | some s =>
      if s.hasGetReader then .streamOutcome s else .errOutcome (some notSupportedMsg)
    | none => .errOutcome (some notSupportedMsg)

/-- The cancellation already happened when the await of index `k`
resolves (the cancel ran while await `t ≤ k` was pending). -/
def abortedAt (cancelAt : Option Nat) (k : Nat) : Bool :=
  match cancelAt with
  | none => false
  | some t => t ≤ k

/-- The cancellation already happened at a synchronous point whose next
await would have index `k` (`controller.signal.aborted` checks). -/
def abortedStrict (cancelAt : Option Nat) (k : Nat) : Bool :=
  match cancelAt with
  | none => false
  | some t => t < k

/-- The `onError(cancelMsg)` emission of `cancelRequest`, placed in the
trace at the await during which the cancel function ran. -/
def senAt (cancelAt : Option Nat) (k : Nat) : List Action :=
  if cancelAt = some k then [Action.errorOut cancelMsg] else []

/-- The recursive `readStreamChunk` pump: one `reader.read()` await per
chunk (await indices `k, k+1, ...`).  A read resolved after cancellation
rejects with an `AbortError`, which the catch ends silently; otherwise
the decoded chunk goes to `onChunk` and on `done` the session completes.
Returns (trace, next unused await index). -/
def pumpReads (cancelAt : Option Nat) (ending : StreamEnd) :
    Nat → List (List Char) → List Action × Nat
  | k, [] =>
    if abortedAt cancelAt k then (senAt cancelAt k, k + 1)
    else
      match ending with
      | .done => ([Action.completeOut], k + 1)
      | .readAbort => ([], k + 1)
      | .readFail m => ([Action.errorOut (readFailHead ++ m)], k + 1)
  | k, ch :: rest =>
    if abortedAt cancelAt k then (senAt cancelAt k, k + 1)
    else
      let p := pumpReads cancelAt ending (k + 1) rest
      (Action.chunkOut ch :: p.1, p.2)

/-- The `makeRequest` recursion.  Arguments: max retries and retry delay
(already defaulted), cancellation instant, current `attempts`, next await
index, and the environment outcomes of the remaining `instance` calls.
An empty environment list models a request that never settles.  Returns
(trace, next unused await index). -/
def runReq (maxR d : Nat) (cancelAt : Option Nat) :
    Nat → Nat → List AttemptSpec → List Action × Nat
  | _, k, [] =>
    if abortedStrict cancelAt k then ([], k) else ([Action.request], k)
  | attempts, k, spec :: rest =>
    if abortedStrict cancelAt k then ([], k)
    else if abortedAt cancelAt k then (Action.request :: senAt cancelAt k, k + 1)
    else
      match attemptOutcome spec with
      | .canceledOutcome => ([Action.request], k + 1)
      | .streamOutcome s =>
        let p := pumpReads cancelAt s.ending (k + 1) s.chunks
        (Action.request :: p.1, p.2)
      | .errOutcome m =>
        if attempts < maxR then
          let p := runReq maxR d cancelAt (attempts + 1) (k + 2) rest
          (Action.request :: Action.wait d :: (senAt cancelAt (k + 1) ++ p.1), p.2)
        else
          (Action.request :: [Action.errorOut (m.getD defaultFailMsg)], k + 1)

/-- The two streaming options recognized beyond the request config. -/
structure StreamOpts where
  retry : Option Nat := none
  retryDelay : Option Nat := none
deriving DecidableEq, Repr

/-- `const maxRetries = options.retry || 0`. -/
def maxRetriesOf : Option Nat → Nat
  | none => 0
  | some v => v

/-- `const retryDelay = options.retryDelay || 1000` (note `0` is falsy). -/
def retryDelayOf : Option Nat → Nat
  | none => 1000
  | some v => if v = 0 then 1000 else v

/-- Placement of the cancel function's own `onError(cancelMsg)`: when the
session's awaits all settle before the cancellation instant (`p.2 ≤ t`),
the cancel function runs after them and its emission is appended at
the end; otherwise it was already emitted inline at await `t`. -/
def sessionAppend (cancelAt : Option Nat) (p : List Action × Nat) : List Action :=
  match cancelAt with
  | none => p.1
  | some t => if t < p.2 then p.1 else p.1 ++ [Action.errorOut cancelMsg]

/-- Full observable trace of one streaming session. -/
def sessionTrace (opts : StreamOpts) (specs : List AttemptSpec)
    (cancelAt : Option Nat) : List Action :=
  sessionAppend cancelAt
    (runReq (maxRetriesOf opts.retry) (retryDelayOf opts.retryDelay)
      cancelAt 0 0 specs)

/-- Hygiene of an environment: no attempt rejection carries a message
that is literally the cancellation sentinel string. -/
def specHygienic : AttemptSpec → Bool
  | .throwErr (some m) => decide (m ≠ cancelMsg)
  | _ => true

def hygienic (specs : List AttemptSpec) : Prop :=
  ∀ sp ∈ specs, specHygienic sp = true

/-- Modelled from the claim on the parser buffer: the suffix of a text
following the last occurrence (at any position, overlaps included) of the
two-newline separator, or the whole text when there is none.  Helper:
`some` of that suffix when an occurrence exists. -/
def afterLastNNOpt : List Char → Option (List Char)
  | [] => none
  | [_] => none
  | a :: b :: rest =>
    match afterLastNNOpt (b :: rest) with
    | some s => some s
    | none => if a = '\n' ∧ b = '\n' then some rest else none

/-- Modelled from the claim on the parser buffer: "the suffix of the
concatenation of all chunks fed so far that follows the last occurrence
of \n\n (or the whole concatenation when no separator has occurred)". -/
def suffixAfterLastNN (l : List Char) : List Char :=
  (afterLastNNOpt l).getD l

/-- Modelled from one reading of the claim on the stateful parser: each
segment is trimmed and the trimmed segment, when non-empty, is parsed. -/
def trimParsedBlocks (bs : List (List Char)) : List SSEEvent :=
  bs.filterMap (fun s =>
    let t := jsTrim s
    if t.isEmpty then none else parseSSEEvent t)

/-- Declarative description of the per-block emission of the stateful
parser: skip segments with an empty trim, parse the untrimmed segment,
keep whole events. -/
def blockEmission (s : List Char) : Option SSEEvent :=
  if (jsTrim s).isEmpty then none else parseSSEEvent s

/-- The data-line extraction described for the Frame Parser: for a
`data:` line, the remainder after the 5-character tag with at most one
leading space removed. -/
def extractData (line : List Char) : Option (List Char) :=
  if dataTag.isPrefixOf line then some (stripSpace (line.drop 5)) else none

/-- All data-line payloads of a block, in encounter order. -/
def dataLinesOf (block : List Char) : List (List Char) :=
  (splitNL block).filterMap extractData

/-- Data projection of an optional event. -/
def eventData : Option SSEEvent → Option (List Char)
  | none => none
  | some e => e.data

/-- A rendered well-formed `data:` line. -/
def renderDataLine (p : List Char) : List Char := "data: ".data ++ p

/-- A rendered frame block made only of well-formed `data:` lines. -/
def renderBlock (ps : List (List Char)) : List Char :=
  joinNL (ps.map renderDataLine)

/-- A text made only of well-formed `data:` lines and blank-line
separators: every block is rendered and closed by a blank line. -/
def renderSSE (blocks : List (List (List Char))) : List Char :=
  (blocks.map (fun b => renderBlock b ++ ['\n', '\n'])).flatten

/-- Well-formedness of the block payloads: every block has at least one
line and every payload is non-empty and newline-free. -/
def wfBlocks (blocks : List (List (List Char))) : Prop :=
  ∀ b ∈ blocks, b ≠ [] ∧ ∀ p ∈ b, p ≠ [] ∧ '\n' ∉ p

/-! ## List helpers -/

theorem twoStepInduction {motive : List Char → Prop}
    (h0 : motive []) (h1 : ∀ c, motive [c])
    (h2 : ∀ a b rest, motive rest → motive (b :: rest) → motive (a :: b :: rest)) :
    ∀ l, motive l
  | [] => h0
  | [c] => h1 c
  | a :: b :: rest =>
    h2 a b rest (twoStepInduction h0 h1 h2 rest) (twoStepInduction h0 h1 h2 (b :: rest))

theorem getLastD_mem {α : Type} (l : List α) (d : α) (h : l ≠ []) :
    l.getLastD d ∈ l := by
  induction l generalizing d with
  | nil => exact absurd rfl h
  | cons a l ih =>
    rw [List.getLastD_cons]
    cases l with
    | nil => simp [List.getLastD]
    | cons x xs => exact List.mem_cons_of_mem a (ih a (by simp))

theorem getLastD_irrel {α : Type} (B : List α) (d e : α) (h : B ≠ []) :
    B.getLastD d = B.getLastD e := by
  cases B with
  | nil => exact absurd rfl h
  | cons x xs => rw [List.getLastD_cons, List.getLastD_cons]

theorem getLastD_append_ne {α : Type} (A B : List α) (d : α) (h : B ≠ []) :
    (A ++ B).getLastD d = B.getLastD d := by
  induction A generalizing d with
  | nil => rfl
  | cons a A ih =>
    rw [List.cons_append, List.getLastD_cons, ih a]
    exact getLastD_irrel B a d h

theorem dropLast_append_ne {α : Type} (A B : List α) (h : B ≠ []) :
    (A ++ B).dropLast = A ++ B.dropLast := by
  induction A with
  | nil => rfl
  | cons a A ih =>
    have hAB : A ++ B ≠ [] := by
      intro he
      exact h (List.append_eq_nil.mp he).2
    rw [List.cons_append]
    cases hx : A ++ B with
    | nil => exact absurd hx hAB
    | cons x xs =>
      rw [List.dropLast_cons₂, ← hx, ih, List.cons_append]

/-! ## splitNN theory -/

theorem consFst_ne_nil (a : Char) (L : List (List Char)) : consFst a L ≠ [] := by
  cases L <;> simp [consFst]

theorem splitNN_ne_nil (l : List Char) : splitNN l ≠ [] := by
  induction l using twoStepInduction with
  | h0 => simp [splitNN]
  | h1 c => simp [splitNN]
  | h2 a b rest ih1 ih2 =>
    simp only [splitNN]
    split
    · simp
    · exact consFst_ne_nil _ _

theorem joinNN_consFst (a : Char) (L : List (List Char)) :
    joinNN (consFst a L) = a :: joinNN L := by
  match L with
  | [] => rfl
  | [h] => rfl
  | h :: h2 :: t => rfl

theorem joinNN_splitNN (l : List Char) : joinNN (splitNN l) = l := by
  induction l using twoStepInduction with
  | h0 => rfl
  | h1 c => rfl
  | h2 a b rest ih1 ih2 =>
    simp only [splitNN]
    split
    · rename_i hab
      simp only [Bool.and_eq_true, beq_iff_eq] at hab
      obtain ⟨ha, hb⟩ := hab
      subst ha; subst hb
      cases hsp : splitNN rest with
      | nil => exact absurd hsp (splitNN_ne_nil rest)
      | cons x xs =>
        show joinNN ([] :: x :: xs) = '\n' :: '\n' :: rest
        show '\n' :: '\n' :: joinNN (x :: xs) = '\n' :: '\n' :: rest
        rw [← hsp, ih1]
    · rw [joinNN_consFst, ih2]

theorem splitNN_cons (a : Char) (w : List Char)
    (h : ¬(a = '\n' ∧ w.head? = some '\n')) :
    splitNN (a :: w) = consFst a (splitNN w) := by
  cases w with
  | nil => rfl
  | cons b r =>
    have hab : ¬((a == '\n' && b == '\n') = true) := by
      simp only [Bool.and_eq_true, beq_iff_eq]
      intro hc
      exact h ⟨hc.1, by rw [hc.2]; rfl⟩
    simp only [splitNN, if_neg hab]

theorem splitNN_first_head (l : List Char) (h : List Char) (t : List (List Char))
    (he : splitNN l = h :: t) (hne : h ≠ []) : h.head? = l.head? := by
  have hj : joinNN (h :: t) = l := by rw [← he, joinNN_splitNN]
  cases h with
  | nil => exact absurd rfl hne
  | cons c w =>
    cases t with
    | nil =>
      show (c :: w).head? = l.head?
      have : c :: w = l := hj
      rw [this]
    | cons x xs =>
      have : (c :: w) ++ '\n' :: '\n' :: joinNN (x :: xs) = l := hj
      rw [← this]
      rfl

theorem splitNN_append (xs : List Char) : ∀ ys : List Char,
    splitNN (xs ++ ys) =
      (splitNN xs).dropLast ++ splitNN ((splitNN xs).getLastD [] ++ ys) := by
  induction xs using twoStepInduction with
  | h0 => intro ys; rfl
  | h1 c => intro ys; rfl
  | h2 a b rest ih1 ih2 =>
    intro ys
    by_cases hab : (a == '\n' && b == '\n') = true
    · have hL : splitNN (a :: b :: (rest ++ ys)) = [] :: splitNN (rest ++ ys) := by
        simp only [splitNN, if_pos hab]
      have hR : splitNN (a :: b :: rest) = [] :: splitNN rest := by
        simp only [splitNN, if_pos hab]
      show splitNN (a :: b :: (rest ++ ys)) =
        (splitNN (a :: b :: rest)).dropLast ++
          splitNN ((splitNN (a :: b :: rest)).getLastD [] ++ ys)
      rw [hL, hR]
      cases hsp : splitNN rest with
      | nil => exact absurd hsp (splitNN_ne_nil rest)
      | cons x xs2 =>
        rw [List.dropLast_cons₂, List.getLastD_cons, List.cons_append, ih1 ys, hsp]
    · have hR : splitNN (a :: b :: rest) = consFst a (splitNN (b :: rest)) := by
        simp only [splitNN, if_neg hab]
      have hnab : ¬(a = '\n' ∧ b = '\n') := by
        intro hc
        exact hab (by simp [hc.1, hc.2])
      have hL : splitNN (a :: b :: (rest ++ ys)) =
          consFst a (splitNN (b :: (rest ++ ys))) :=
        splitNN_cons a (b :: (rest ++ ys)) (by
          intro hc
          exact hnab ⟨hc.1, by injection hc.2⟩)
      have ih2b := ih2 ys
      rw [List.cons_append] at ih2b
      show splitNN (a :: b :: (rest ++ ys)) =
        (splitNN (a :: b :: rest)).dropLast ++
          splitNN ((splitNN (a :: b :: rest)).getLastD [] ++ ys)
      rw [hL, ih2b, hR]
      cases hS : splitNN (b :: rest) with
      | nil => exact absurd hS (splitNN_ne_nil _)
      | cons h t =>
        cases t with
        | nil =>
          have hh : h = b :: rest := by
            have hj := joinNN_splitNN (b :: rest)
            rw [hS] at hj
            exact hj
          simp only [consFst, List.dropLast_single, List.nil_append,
            List.getLastD_cons, List.getLastD_nil]
          rw [List.cons_append]
          refine (splitNN_cons a (h ++ ys) ?_).symm
          intro hc
          apply hnab
          refine ⟨hc.1, ?_⟩
          have hhd : (h ++ ys).head? = some b := by
            rw [hh]; rfl
          rw [hhd] at hc
          injection hc.2
        | cons h2 t2 =>
          simp only [consFst, List.dropLast_cons₂, List.getLastD_cons]
          rfl

theorem mem_splitNN (l : List Char) : ∀ x ∈ splitNN l, containsNN x = false := by
  induction l using twoStepInduction with
  | h0 =>
    intro x hx
    simp only [splitNN, List.mem_singleton] at hx
    subst hx; rfl
  | h1 c =>
    intro x hx
    simp only [splitNN, List.mem_singleton] at hx
    subst hx; rfl
  | h2 a b rest ih1 ih2 =>
    intro x hx
    by_cases hab : (a == '\n' && b == '\n') = true
    · simp only [splitNN, if_pos hab] at hx
      rcases List.mem_cons.mp hx with h | h
      · subst h; rfl
      · exact ih1 x h
    · simp only [splitNN, if_neg hab] at hx
      cases hS : splitNN (b :: rest) with
      | nil => exact absurd hS (splitNN_ne_nil _)
      | cons h t =>
        rw [hS] at hx
        rcases List.mem_cons.mp hx with hx1 | hx1
        · subst hx1
          cases hh : h with
          | nil => rfl
          | cons c w =>
            have hcb : c = b := by
              have := splitNN_first_head (b :: rest) h t hS (by rw [hh]; simp)
              rw [hh] at this
              injection this
            show containsNN (a :: c :: w) = false
            simp only [containsNN, Bool.or_eq_false_iff]
            constructor
            · rw [hcb]
              simpa using hab
            · have := ih2 h (by rw [hS]; exact List.mem_cons_self h t)
              rw [hh] at this
              exact this
        · exact ih2 x (by rw [hS]; exact List.mem_cons_of_mem h hx1)

theorem splitNN_eq_single (l : List Char) (h : containsNN l = false) :
    splitNN l = [l] := by
  induction l using twoStepInduction with
  | h0 => rfl
  | h1 c => rfl
  | h2 a b rest ih1 ih2 =>
    simp only [containsNN, Bool.or_eq_false_iff] at h
    simp only [splitNN, if_neg (by rw [h.1]; simp : ¬((a == '\n' && b == '\n') = true))]
    rw [ih2 h.2]
    rfl

/-! ## Stateful parser: characterization over the whole input -/

theorem processBlocks_append (A B : List (List Char)) :
    processBlocks (A ++ B) = processBlocks A ++ processBlocks B := by
  induction A with
  | nil => rfl
  | cons blk A ih =>
    simp only [List.cons_append, processBlocks]
    split
    · exact ih
    · cases parseSSEEvent blk with
      | none => simpa using ih
      | some ev => simpa using ih

/-- The stateful parser is history-independent: its state after feeding
any chunk sequence is determined by the blank-line split of the
concatenation fed so far.  The buffer is the split's last segment and
the emitted events come from the earlier segments. -/
theorem sseRun_eq (cs : List (List Char)) : ∀ buf : List Char,
    containsNN buf = false →
    sseRun buf cs =
      ((splitNN (buf ++ cs.flatten)).getLastD [],
       processBlocks (splitNN (buf ++ cs.flatten)).dropLast) := by
  induction cs with
  | nil =>
    intro buf hb
    show (buf, []) = _
    rw [List.flatten_nil, List.append_nil, splitNN_eq_single buf hb]
    rfl
  | cons c cs ih =>
    intro buf hb
    have hS : containsNN ((splitNN (buf ++ c)).getLastD []) = false :=
      mem_splitNN (buf ++ c) _ (getLastD_mem _ _ (splitNN_ne_nil _))
    have hkey : splitNN (buf ++ (c :: cs).flatten) =
        (splitNN (buf ++ c)).dropLast ++
          splitNN ((splitNN (buf ++ c)).getLastD [] ++ cs.flatten) := by
      rw [List.flatten_cons, ← List.append_assoc]
      exact splitNN_append (buf ++ c) cs.flatten
    have hT := splitNN_ne_nil ((splitNN (buf ++ c)).getLastD [] ++ cs.flatten)
    show ((sseRun (sseFeed buf c).1 cs).1,
        (sseFeed buf c).2 ++ (sseRun (sseFeed buf c).1 cs).2) = _
    rw [show (sseFeed buf c).1 = (splitNN (buf ++ c)).getLastD [] from rfl,
      show (sseFeed buf c).2 = processBlocks (splitNN (buf ++ c)).dropLast from rfl,
      ih _ hS, hkey,
      getLastD_append_ne _ _ _ hT, dropLast_append_ne _ _ hT, processBlocks_append]

/-- Claim C2: feeding the stateful parser of `createSSEParser` a text in
arbitrarily many consecutive chunks yields exactly the same state and the
same ordered event emissions as feeding the concatenated text in one
call; in particular a final block with no closing blank-line delimiter
stays in the buffer and is emitted in neither run. -/
theorem stateful_parser_boundary_independence (cs : List (List Char)) :
    sseRun [] cs = sseRun [] [cs.flatten] := by
  rw [sseRun_eq cs [] rfl, sseRun_eq [cs.flatten] [] rfl]
  simp [List.flatten]

/-- Claim C10 (amended): after any chunk sequence the retained buffer has
no blank-line separator inside it, and it equals the last segment of the
leftmost, non-overlapping blank-line split of the concatenation of all
chunks fed so far (the whole concatenation when no separator occurred). -/
theorem buffer_invariant (cs : List (List Char)) :
    containsNN (sseRun [] cs).1 = false ∧
    (sseRun [] cs).1 = (splitNN cs.flatten).getLastD [] := by
  rw [sseRun_eq cs [] rfl]
  refine ⟨?_, rfl⟩
  exact mem_splitNN _ _ (getLastD_mem _ _ (splitNN_ne_nil _))

/-- Claim C10 (counterexample): after feeding the single chunk
`"\n\n\n"`, the retained buffer is `"\n"`, while the suffix of the
concatenation following its last occurrence of `"\n\n"` (the occurrence
starting at the middle newline) is the empty string — the buffer is not
that suffix. -/
theorem buffer_suffix_counterexample :
    (sseRun [] [['\n', '\n', '\n']]).1 = ['\n'] ∧
    suffixAfterLastNN (List.flatten [['\n', '\n', '\n']]) = [] ∧
    (sseRun [] [['\n', '\n', '\n']]).1 ≠
      suffixAfterLastNN (List.flatten [['\n', '\n', '\n']]) := by
  refine ⟨by decide, by decide, by decide⟩

/-! ## Per-segment processing (C9) -/

theorem processBlocks_eq_filterMap (bs : List (List Char)) :
    processBlocks bs = bs.filterMap blockEmission := by
  induction bs with
  | nil => rfl
  | cons blk bs ih =>
    by_cases ht : (jsTrim blk).isEmpty
    · simp [processBlocks, ht, blockEmission, List.filterMap_cons, ih]
    · cases hp : parseSSEEvent blk with
      | none => simp [processBlocks, ht, blockEmission, hp, List.filterMap_cons, ih]
      | some ev => simp [processBlocks, ht, blockEmission, hp, List.filterMap_cons, ih]

/-- Claim C9 (amended): on each invocation the stateful parser keeps the
last segment of the blank-line split as its buffer, and for every other
segment it uses the trim only as an emptiness guard: a segment whose trim
is empty is skipped, otherwise the untrimmed segment itself is parsed
with the Frame Parser, and whenever the parse yields an event the full
event object is passed to the callback. -/
theorem stateful_segment_processing (buffer chunk : List Char) :
    sseFeed buffer chunk =
      ((splitNN (buffer ++ chunk)).getLastD [],
       ((splitNN (buffer ++ chunk)).dropLast).filterMap blockEmission) := by
  show ((splitNN (buffer ++ chunk)).getLastD [],
      processBlocks (splitNN (buffer ++ chunk)).dropLast) = _
  rw [processBlocks_eq_filterMap]

/-- Claim C9 (counterexample): the parser does not parse the trimmed
segment.  Feeding `" data: x\n\n"` emits nothing, because the untrimmed
segment `" data: x"` has no recognized field line, while parsing the
trimmed segments — as the claim describes — would emit the event with
data `"x"`. -/
theorem trim_only_guards_counterexample :
    (sseFeed [] (" data: x\n\n".data)).2 = [] ∧
    trimParsedBlocks ((splitNN (" data: x\n\n".data)).dropLast) =
      [{ data := some ['x'] }] ∧
    (sseFeed [] (" data: x\n\n".data)).2 ≠
      trimParsedBlocks ((splitNN (" data: x\n\n".data)).dropLast) := by
  refine ⟨by decide, by decide, by decide⟩

/-! ## Frame Parser line processing (C6, C7) -/

theorem processLine_dataLines (st : PState) (line : List Char) :
    (processLine st line).dataLines = st.dataLines ++ (extractData line).toList := by
  unfold processLine extractData
  by_cases h1 : dataTag.isPrefixOf line
  · simp [h1]
  · by_cases h2 : eventTag.isPrefixOf line
    · simp [h1, h2]
    · by_cases h3 : idTag.isPrefixOf line
      · simp [h1, h2, h3]
      · by_cases h4 : retryTag.isPrefixOf line
        · cases hp : parseIntDec (jsTrim (line.drop 6)) <;> simp [h1, h2, h3, h4, hp]
        · simp [h1, h2, h3, h4]

theorem processLine_evData (st : PState) (line : List Char) :
    (processLine st line).ev.data = st.ev.data := by
  unfold processLine
  by_cases h1 : dataTag.isPrefixOf line
  · simp [h1]
  · by_cases h2 : eventTag.isPrefixOf line
    · simp [h1, h2]
    · by_cases h3 : idTag.isPrefixOf line
      · simp [h1, h2, h3]
      · by_cases h4 : retryTag.isPrefixOf line
        · cases hp : parseIntDec (jsTrim (line.drop 6)) <;> simp [h1, h2, h3, h4, hp]
        · simp [h1, h2, h3, h4]

theorem foldl_dataLines (lines : List (List Char)) : ∀ st : PState,
    (lines.foldl processLine st).dataLines =
      st.dataLines ++ lines.filterMap extractData := by
  induction lines with
  | nil => intro st; simp
  | cons l lines ih =>
    intro st
    rw [List.foldl_cons, ih, processLine_dataLines]
    cases hx : extractData l <;> simp [List.filterMap_cons, hx]

theorem foldl_evData (lines : List (List Char)) : ∀ st : PState,
    (lines.foldl processLine st).ev.data = st.ev.data := by
  induction lines with
  | nil => intro st; rfl
  | cons l lines ih =>
    intro st
    rw [List.foldl_cons, ih, processLine_evData]

theorem eventData_finalizeKeys (ev : SSEEvent) :
    eventData (finalizeKeys ev) = ev.data := by
  unfold finalizeKeys
  split
  · rfl
  · rename_i hcond
    have hd : ev.data = none := by
      cases hx : ev.data with
      | none => rfl
      | some d => exact absurd (by simp [hx]) hcond
    rw [hd]
    rfl

theorem eventData_finalize (st : PState) (h : st.ev.data = none) :
    eventData (finalizeEvent st) =
      (if st.dataLines = [] then none else some (joinNL st.dataLines)) := by
  unfold finalizeEvent
  rw [eventData_finalizeKeys]
  cases hdl : st.dataLines with
  | nil => simp [h]
  | cons d ds => simp

/-- Claim C6: each `data:` line of a frame block contributes the line
after the 5-character tag with exactly one leading space removed when
present, and the block's data field is the newline-join of those
contributions in encounter order (absent when there are none); in
particular the block `"data: a\ndata: b\n\n"` yields data `"a\nb"`. -/
theorem data_lines_join :
    (∀ block : List Char,
      eventData (parseSSEEvent block) =
        (if dataLinesOf block = [] then none
         else some (joinNL (dataLinesOf block)))) ∧
    eventData (parseSSEEvent ("data: a\ndata: b\n\n".data)) = some ['a', '\n', 'b'] := by
  constructor
  · intro block
    show eventData (finalizeEvent ((splitNL block).foldl processLine {})) = _
    rw [eventData_finalize _ (by rw [foldl_evData])]
    rw [foldl_dataLines]
    rfl
  · decide

theorem isPrefixOf_append_self (l m : List Char) : l.isPrefixOf (l ++ m) = true := by
  induction l with
  | nil => simp [List.isPrefixOf]
  | cons a l ih => simp [List.isPrefixOf, ih]

theorem processLine_retry_malformed (st : PState) (content : List Char)
    (h : parseIntDec (jsTrim content) = none) :
    processLine st (retryTag ++ content) = st := by
  have h1 : dataTag.isPrefixOf (retryTag ++ content) = false := rfl
  have h2 : eventTag.isPrefixOf (retryTag ++ content) = false := rfl
  have h3 : idTag.isPrefixOf (retryTag ++ content) = false := rfl
  have h4 : retryTag.isPrefixOf (retryTag ++ content) = true :=
    isPrefixOf_append_self retryTag content
  have h6 : (retryTag ++ content).drop 6 = content := rfl
  simp only [processLine, h1, h2, h3, h4, h6, h]
  simp

/-- Claim C7 (amended): a `retry:` line whose trimmed content does not
parse as an integer leaves the Frame Parser state unchanged — it sets no
field and raises no error — so the block parses exactly as if the line
were absent and the remaining lines are processed as usual; in
particular, when no `retry:` line of the block parses, the retry field
stays unset. -/
theorem malformed_retry_noop (content : List Char)
    (h : parseIntDec (jsTrim content) = none) :
    (∀ st : PState, processLine st (retryTag ++ content) = st) ∧
    (∀ L1 L2 : List (List Char),
      parseLinesEvent (L1 ++ (retryTag ++ content) :: L2) =
        parseLinesEvent (L1 ++ L2)) := by
  refine ⟨fun st => processLine_retry_malformed st content h, ?_⟩
  intro L1 L2
  unfold parseLinesEvent
  rw [List.foldl_append, List.foldl_append, List.foldl_cons,
    processLine_retry_malformed _ content h]

theorem malformed_retry_noop_witness :
    parseIntDec (jsTrim ['x']) = none ∧
    parseLinesEvent ([['i', 'd', ':', '1']] ++
        (retryTag ++ ['x']) :: [['d', 'a', 't', 'a', ':', 'y']]) =
      parseLinesEvent ([['i', 'd', ':', '1']] ++ [['d', 'a', 't', 'a', ':', 'y']]) :=
  ⟨by decide, (malformed_retry_noop ['x'] (by decide)).2
    [['i', 'd', ':', '1']] [['d', 'a', 't', 'a', ':', 'y']]⟩

/-- Claim C7 (counterexample): a block that contains a `retry:` line with
non-numeric content can still get its retry field populated, by another
well-formed `retry:` line: on `"retry:x\nretry:7"` the parser returns an
event with retry 7 even though `"x"` does not parse. -/
theorem malformed_retry_counterexample :
    parseIntDec (jsTrim "x".data) = none ∧
    parseSSEEvent ("retry:x\nretry:7".data) = some { retry := some (7 : Int) } := by
  refine ⟨by decide, by decide⟩

/-! ## Stateless splitter on well-formed data-line texts (C3) -/

theorem containsNN_glue (l : List Char) : ∀ T : List Char, '\n' ∉ l →
    T.head? ≠ some '\n' → containsNN T = false →
    containsNN (l ++ '\n' :: T) = false := by
  induction l with
  | nil =>
    intro T _ hT hcT
    cases T with
    | nil => rfl
    | cons c w =>
      have hc : ¬(c = '\n') := by
        intro hx
        exact hT (by rw [hx]; rfl)
      simp only [List.nil_append, containsNN, Bool.or_eq_false_iff]
      exact ⟨by simpa using hc, hcT⟩
  | cons a l ih =>
    intro T hl hT hcT
    have ha : ¬(a = '\n') := fun hx => hl (by rw [hx]; exact List.mem_cons_self _ _)
    have hl2 : '\n' ∉ l := fun hx => hl (List.mem_cons_of_mem a hx)
    cases l with
    | nil =>
      simp only [List.cons_append, List.nil_append, containsNN, Bool.or_eq_false_iff]
      refine ⟨by simpa using ha, ?_⟩
      have := ih T hl2 hT hcT
      simpa using this
    | cons b w =>
      have hb : ¬(b = '\n') := fun hx =>
        hl2 (by rw [hx]; exact List.mem_cons_self _ _)
      simp only [List.cons_append, containsNN, Bool.or_eq_false_iff]
      constructor
      · simp [ha]
      · have := ih T hl2 hT hcT
        simpa using this

theorem containsNN_snoc_nl (l : List Char) (hl : '\n' ∉ l) :
    containsNN (l ++ ['\n']) = false :=
  containsNN_glue l [] hl (by simp) rfl

theorem joinNL_cons_head (x : List Char) (xs : List (List Char)) (M : List Char)
    (hx : x ≠ []) : (joinNL (x :: xs) ++ M).head? = x.head? := by
  cases xs with
  | nil =>
    cases x with
    | nil => exact absurd rfl hx
    | cons c w => rfl
  | cons y ys =>
    cases x with
    | nil => exact absurd rfl hx
    | cons c w => rfl

theorem joinNL_lines_ok (ls : List (List Char)) :
    (∀ l ∈ ls, l ≠ [] ∧ '\n' ∉ l) → ls ≠ [] →
    containsNN (joinNL ls ++ ['\n']) = false := by
  induction ls with
  | nil => intro _ hne; exact absurd rfl hne
  | cons l ls ih =>
    intro hwf _
    have hl := hwf l (List.mem_cons_self _ _)
    cases ls with
    | nil => exact containsNN_snoc_nl l hl.2
    | cons x xs =>
      have hx := hwf x (List.mem_cons_of_mem _ (List.mem_cons_self _ _))
      have hjoin : joinNL (l :: x :: xs) = l ++ '\n' :: joinNL (x :: xs) := rfl
      rw [hjoin, List.append_assoc, List.cons_append]
      show containsNN (l ++ '\n' :: (joinNL (x :: xs) ++ ['\n'])) = false
      refine containsNN_glue l _ hl.2 ?_ ?_
      · rw [joinNL_cons_head x xs ['\n'] hx.1]
        cases x with
        | nil => exact absurd rfl hx.1
        | cons c w =>
          have : ¬(c = '\n') := fun hc =>
            hx.2 (by rw [hc]; exact List.mem_cons_self _ _)
          simpa using this
      · exact ih (fun a ha => hwf a (List.mem_cons_of_mem _ ha)) (by simp)

theorem splitNN_sep_left (X : List Char) : ∀ R : List Char,
    containsNN (X ++ ['\n']) = false →
    splitNN (X ++ '\n' :: '\n' :: R) = X :: splitNN R := by
  induction X with
  | nil =>
    intro R _
    simp [splitNN]
  | cons c X ih =>
    intro R hc
    cases X with
    | nil =>
      have hcn : (c == '\n') = false := by simpa [containsNN] using hc
      have hcp : ¬(c = '\n') := by simpa using hcn
      show splitNN (c :: '\n' :: '\n' :: R) = [c] :: splitNN R
      simp [splitNN, hcn, hcp, consFst]
    | cons d w =>
      simp only [List.cons_append, containsNN, Bool.or_eq_false_iff] at hc
      show splitNN (c :: d :: (w ++ '\n' :: '\n' :: R)) = (c :: d :: w) :: splitNN R
      have := ih R (by simpa using hc.2)
      rw [List.cons_append] at this
      simp [splitNN, hc.1, this, consFst]

theorem renderDataLine_noNL (p : List Char) (hp : '\n' ∉ p) :
    '\n' ∉ renderDataLine p := by
  intro hmem
  rcases List.mem_append.mp hmem with h | h
  · revert h
    decide
  · exact hp h

theorem renderBlock_lines_ok (b : List (List Char))
    (hb : ∀ p ∈ b, p ≠ [] ∧ '\n' ∉ p) :
    ∀ l ∈ b.map renderDataLine, l ≠ [] ∧ '\n' ∉ l := by
  intro l hl
  rcases List.mem_map.mp hl with ⟨p, hp, rfl⟩
  refine ⟨by simp [renderDataLine], renderDataLine_noNL p (hb p hp).2⟩

theorem splitNN_renderSSE (blocks : List (List (List Char))) :
    wfBlocks blocks →
    splitNN (renderSSE blocks) = blocks.map renderBlock ++ [[]] := by
  induction blocks with
  | nil => intro _; rfl
  | cons b bs ih =>
    intro h
    have hb := h b (List.mem_cons_self _ _)
    have hbs : wfBlocks bs := fun x hx => h x (List.mem_cons_of_mem _ hx)
    have hrender : renderSSE (b :: bs) =
        renderBlock b ++ '\n' :: '\n' :: renderSSE bs := by
      show (renderBlock b ++ ['\n', '\n']) ++ renderSSE bs = _
      rw [List.append_assoc]
      rfl
    rw [hrender, splitNN_sep_left (renderBlock b) (renderSSE bs)
      (joinNL_lines_ok (b.map renderDataLine) (renderBlock_lines_ok b hb.2)
        (by simpa using hb.1)),
      ih hbs]
    rfl

theorem splitNL_noNL (l : List Char) (hl : '\n' ∉ l) : splitNL l = [l] := by
  induction l with
  | nil => rfl
  | cons c w ih =>
    have hc : (c == '\n') = false :=
      beq_eq_false_iff_ne.mpr (fun hx => hl (by rw [hx]; exact List.mem_cons_self _ _))
    simp [splitNL, hc, ih (fun hx => hl (List.mem_cons_of_mem c hx)), consFst]

theorem splitNL_sep (l : List Char) : ∀ R : List Char, '\n' ∉ l →
    splitNL (l ++ '\n' :: R) = l :: splitNL R := by
  induction l with
  | nil => intro R _; simp [splitNL]
  | cons c w ih =>
    intro R hl
    have hc : (c == '\n') = false :=
      beq_eq_false_iff_ne.mpr (fun hx => hl (by rw [hx]; exact List.mem_cons_self _ _))
    show splitNL (c :: (w ++ '\n' :: R)) = (c :: w) :: splitNL R
    simp [splitNL, hc, ih R (fun hx => hl (List.mem_cons_of_mem c hx)), consFst]

theorem splitNL_joinNL (ls : List (List Char)) :
    ls ≠ [] → (∀ l ∈ ls, '\n' ∉ l) → splitNL (joinNL ls) = ls := by
  induction ls with
  | nil => intro hne _; exact absurd rfl hne
  | cons l ls ih =>
    intro _ hwf
    cases ls with
    | nil => exact splitNL_noNL l (hwf l (List.mem_cons_self _ _))
    | cons x xs =>
      show splitNL (l ++ '\n' :: joinNL (x :: xs)) = l :: x :: xs
      rw [splitNL_sep l (joinNL (x :: xs)) (hwf l (List.mem_cons_self _ _)),
        ih (by simp) (fun a ha => hwf a (List.mem_cons_of_mem _ ha))]

theorem processLine_renderData (st : PState) (p : List Char) :
    processLine st (renderDataLine p) =
      { st with dataLines := st.dataLines ++ [p] } := by
  have h1 : dataTag.isPrefixOf (renderDataLine p) = true :=
    isPrefixOf_append_self dataTag (' ' :: p)
  have h5 : stripSpace ((renderDataLine p).drop 5) = p := rfl
  simp [processLine, h1, h5]

theorem foldl_renderData (ps : List (List Char)) : ∀ st : PState,
    (ps.map renderDataLine).foldl processLine st =
      { st with dataLines := st.dataLines ++ ps } := by
  induction ps with
  | nil => intro st; simp
  | cons p ps ih =>
    intro st
    rw [List.map_cons, List.foldl_cons, processLine_renderData, ih]
    simp

theorem parseSSEEvent_renderBlock (b : List (List Char)) (hne : b ≠ [])
    (hwf : ∀ p ∈ b, p ≠ [] ∧ '\n' ∉ p) :
    parseSSEEvent (renderBlock b) = some { data := some (joinNL b) } := by
  show parseLinesEvent (splitNL (joinNL (b.map renderDataLine))) = _
  rw [splitNL_joinNL (b.map renderDataLine) (by simpa using hne)
    (fun l hl => (renderBlock_lines_ok b hwf l hl).2)]
  show finalizeEvent ((b.map renderDataLine).foldl processLine {}) = _
  rw [foldl_renderData]
  cases b with
  | nil => exact absurd rfl hne
  | cons p ps =>
    simp [finalizeEvent, finalizeKeys]

theorem joinNL_ne_nil (p : List Char) (ps : List (List Char)) (hp : p ≠ []) :
    joinNL (p :: ps) ≠ [] := by
  cases ps with
  | nil => exact hp
  | cons x xs =>
    show p ++ '\n' :: joinNL (x :: xs) ≠ []
    simp

theorem renderBlock_ne_nil (b : List (List Char)) (hne : b ≠ []) :
    renderBlock b ≠ [] := by
  cases b with
  | nil => exact absurd rfl hne
  | cons p ps =>
    exact joinNL_ne_nil (renderDataLine p) (ps.map renderDataLine)
      (by simp [renderDataLine])

/-- Claim C3: on a text made only of well-formed `data:` lines and
blank-line separators, the stateless splitter invokes the callback once
per block, in source order, with the block's newline-joined payloads. -/
theorem stateless_splitter_wellformed (blocks : List (List (List Char)))
    (h : wfBlocks blocks) :
    parseSSEChunk (renderSSE blocks) = blocks.map joinNL := by
  unfold parseSSEChunk
  rw [splitNN_renderSSE blocks h]
  induction blocks with
  | nil => rfl
  | cons b bs ih =>
    have hb := h b (List.mem_cons_self _ _)
    have hbs : wfBlocks bs := fun x hx => h x (List.mem_cons_of_mem _ hx)
    have hbne := renderBlock_ne_nil b hb.1
    have hde : chunkEmit (renderBlock b) = some (joinNL b) := by
      unfold chunkEmit
      rw [parseSSEEvent_renderBlock b hb.1 hb.2]
      have : (joinNL b).isEmpty = false := by
        cases b with
        | nil => exact absurd rfl hb.1
        | cons p ps =>
          have := joinNL_ne_nil p ps (hb.2 p (List.mem_cons_self _ _)).1
          simpa [List.isEmpty_iff] using this
      simp [this]
    rw [List.map_cons, List.cons_append, List.filter_cons,
      if_pos (by simpa [List.isEmpty_iff] using hbne), List.filterMap_cons, hde,
      List.map_cons]
    rw [ih hbs]

theorem stateless_splitter_wellformed_witness :
    wfBlocks [["hello".data], ["world".data]] ∧
    parseSSEChunk ("data: hello\n\ndata: world\n\n".data) =
      ["hello".data, "world".data] :=
  ⟨by unfold wfBlocks; decide, by
    have h := stateless_splitter_wellformed [["hello".data], ["world".data]]
      (by unfold wfBlocks; decide)
    exact h⟩

/-! ## Stream controller: uncancelled sessions (C4, C1, C8) -/

theorem pumpReads_none (ending : StreamEnd) (chunks : List (List Char)) : ∀ k : Nat,
    pumpReads none ending k chunks =
      (chunks.map Action.chunkOut ++
        (match ending with
         | .done => [Action.completeOut]
         | .readAbort => []
         | .readFail m => [Action.errorOut (readFailHead ++ m)]),
       k + chunks.length + 1) := by
  induction chunks with
  | nil =>
    intro k
    cases ending <;> simp [pumpReads, abortedAt]
  | cons ch rest ih =>
    intro k
    simp only [pumpReads, abortedAt]
    rw [ih (k + 1)]
    simp only [List.map_cons, List.cons_append, List.length_cons]
    rw [if_neg (by simp)]
    simp only [Prod.mk.injEq]
    exact ⟨trivial, by omega⟩

theorem count_request_chunks (cs : List (List Char)) :
    (cs.map Action.chunkOut).count Action.request = 0 := by
  rw [List.count_eq_zero]
  simp

/-- Claim C4: with `retry: 3`, an establishment that fails twice and
succeeds on the third attempt issues the HTTP request exactly 3 times,
delivers every decoded chunk to `onChunk`, completes, and never invokes
`onError`. -/
theorem retry_twice_then_success (m1 m2 : Option (List Char)) (s : StreamObj)
    (dopt : Option Nat) (h1 : s.hasGetReader = true)
    (h2 : s.ending = StreamEnd.done) :
    sessionTrace { retry := some 3, retryDelay := dopt }
        [AttemptSpec.throwErr m1, AttemptSpec.throwErr m2,
         AttemptSpec.respond
           { dataField := some s, bodyField := none, selfStream := none }] none
      = [Action.request, Action.wait (retryDelayOf dopt), Action.request,
         Action.wait (retryDelayOf dopt), Action.request]
        ++ s.chunks.map Action.chunkOut ++ [Action.completeOut]
    ∧ (sessionTrace { retry := some 3, retryDelay := dopt }
        [AttemptSpec.throwErr m1, AttemptSpec.throwErr m2,
         AttemptSpec.respond
           { dataField := some s, bodyField := none, selfStream := none }] none).count
        Action.request = 3
    ∧ ∀ m, Action.errorOut m ∉
        sessionTrace { retry := some 3, retryDelay := dopt }
          [AttemptSpec.throwErr m1, AttemptSpec.throwErr m2,
           AttemptSpec.respond
             { dataField := some s, bodyField := none, selfStream := none }] none := by
  have key : sessionTrace { retry := some 3, retryDelay := dopt }
      [AttemptSpec.throwErr m1, AttemptSpec.throwErr m2,
       AttemptSpec.respond
         { dataField := some s, bodyField := none, selfStream := none }] none
    = [Action.request, Action.wait (retryDelayOf dopt), Action.request,
       Action.wait (retryDelayOf dopt), Action.request]
      ++ s.chunks.map Action.chunkOut ++ [Action.completeOut] := by
    simp [sessionTrace, sessionAppend, maxRetriesOf, runReq, attemptOutcome,
      abortedStrict, abortedAt, senAt, resolveStream, h1, h2, pumpReads_none]
  refine ⟨key, ?_, ?_⟩
  · rw [key]
    simp [List.count_append, List.count_cons, count_request_chunks]
  · intro m
    rw [key]
    simp

theorem retry_twice_then_success_witness :
    sessionTrace { retry := some 3, retryDelay := none }
        [AttemptSpec.throwErr (some ['a']), AttemptSpec.throwErr none,
         AttemptSpec.respond
           { dataField := some ⟨true, [['h']], StreamEnd.done⟩,
             bodyField := none, selfStream := none }] none
      = [Action.request, Action.wait 1000, Action.request, Action.wait 1000,
         Action.request, Action.chunkOut ['h'], Action.completeOut] := by
  have h := retry_twice_then_success (some ['a']) none
    ⟨true, [['h']], StreamEnd.done⟩ none rfl rfl
  exact h.1

theorem runReq_nil_eq (maxR d : Nat) (c : Option Nat) (attempts k : Nat) :
    runReq maxR d c attempts k [] =
      (if abortedStrict c k then ([], k) else ([Action.request], k)) := rfl

theorem runReq_cons_eq (maxR d : Nat) (c : Option Nat) (attempts k : Nat)
    (spec : AttemptSpec) (rest : List AttemptSpec) :
    runReq maxR d c attempts k (spec :: rest) =
      (if abortedStrict c k then ([], k)
       else if abortedAt c k then (Action.request :: senAt c k, k + 1)
       else
         match attemptOutcome spec with
         | .canceledOutcome => ([Action.request], k + 1)
         | .streamOutcome s =>
           (Action.request :: (pumpReads c s.ending (k + 1) s.chunks).1,
            (pumpReads c s.ending (k + 1) s.chunks).2)
         | .errOutcome m =>
           if attempts < maxR then
             (Action.request :: Action.wait d ::
               (senAt c (k + 1) ++ (runReq maxR d c (attempts + 1) (k + 2) rest).1),
              (runReq maxR d c (attempts + 1) (k + 2) rest).2)
           else
             (Action.request :: [Action.errorOut (m.getD defaultFailMsg)], k + 1)) := rfl

theorem pumpReads_nil_eq (c : Option Nat) (ending : StreamEnd) (k : Nat) :
    pumpReads c ending k [] =
      (if abortedAt c k then (senAt c k, k + 1)
       else
         match ending with
         | .done => ([Action.completeOut], k + 1)
         | .readAbort => ([], k + 1)
         | .readFail m => ([Action.errorOut (readFailHead ++ m)], k + 1)) := rfl

theorem pumpReads_cons_eq (c : Option Nat) (ending : StreamEnd) (k : Nat)
    (ch : List Char) (rest : List (List Char)) :
    pumpReads c ending k (ch :: rest) =
      (if abortedAt c k then (senAt c k, k + 1)
       else
         (Action.chunkOut ch :: (pumpReads c ending (k + 1) rest).1,
          (pumpReads c ending (k + 1) rest).2)) := rfl

theorem count_flatten_replicate (a : Action) (L : List Action) : ∀ j : Nat,
    ((List.replicate j L).flatten).count a = j * L.count a := by
  intro j
  induction j with
  | zero => simp
  | succ j ih =>
    rw [List.replicate_succ, List.flatten_cons, List.count_append, ih]
    ring

theorem runReq_noReader (maxR d : Nat) (r : JSResp)
    (hr : attemptOutcome (AttemptSpec.respond r) =
      Outcome.errOutcome (some notSupportedMsg)) :
    ∀ (j attempts k : Nat), attempts + j = maxR →
    runReq maxR d none attempts k
        (List.replicate (j + 1) (AttemptSpec.respond r)) =
      ((List.replicate j [Action.request, Action.wait d]).flatten ++
        [Action.request, Action.errorOut notSupportedMsg], k + 2 * j + 1) := by
  intro j
  induction j with
  | zero =>
    intro attempts k ha
    simp only [List.replicate, runReq, abortedStrict, abortedAt, hr]
    rw [if_neg (by omega : ¬(attempts < maxR))]
    simp
  | succ j ih =>
    intro attempts k ha
    have hlt : attempts < maxR := by omega
    rw [List.replicate_succ, runReq_cons_eq, hr]
    simp only [abortedStrict, abortedAt, senAt, hlt, if_true]
    rw [ih (attempts + 1) (k + 2) (by omega)]
    have harith : k + 2 + 2 * j + 1 = k + 2 * (j + 1) + 1 := by omega
    simp [harith, List.replicate_succ]

/-- Claim C1 (amended): a response that yields no usable reader is NOT a
non-retried fatal error: the thrown "stream not supported" error lands in
the same catch as any establishment failure, so it is retried while
`attempts < maxRetries` (one wait before each retry), and `onError` is
invoked with the message exactly once, after retries are exhausted; only
with `retry: 0` (the default) is there no retry. -/
theorem noReader_treated_as_establishment_failure (maxR : Nat)
    (dopt : Option Nat) (r : JSResp)
    (hr : attemptOutcome (AttemptSpec.respond r) =
      Outcome.errOutcome (some notSupportedMsg)) :
    sessionTrace { retry := some maxR, retryDelay := dopt }
        (List.replicate (maxR + 1) (AttemptSpec.respond r)) none
      = (List.replicate maxR
          [Action.request, Action.wait (retryDelayOf dopt)]).flatten
        ++ [Action.request, Action.errorOut notSupportedMsg]
    ∧ (sessionTrace { retry := some maxR, retryDelay := dopt }
        (List.replicate (maxR + 1) (AttemptSpec.respond r)) none).count
        Action.request = maxR + 1
    ∧ (sessionTrace { retry := some maxR, retryDelay := dopt }
        (List.replicate (maxR + 1) (AttemptSpec.respond r)) none).count
        (Action.errorOut notSupportedMsg) = 1 := by
  have key : sessionTrace { retry := some maxR, retryDelay := dopt }
      (List.replicate (maxR + 1) (AttemptSpec.respond r)) none
    = (List.replicate maxR
        [Action.request, Action.wait (retryDelayOf dopt)]).flatten
      ++ [Action.request, Action.errorOut notSupportedMsg] := by
    unfold sessionTrace
    rw [show maxRetriesOf (some maxR) = maxR from rfl,
      runReq_noReader maxR (retryDelayOf dopt) r hr maxR 0 0 (by omega)]
    rfl
  refine ⟨key, ?_, ?_⟩
  · rw [key, List.count_append, count_flatten_replicate]
    simp [List.count_cons]
  · rw [key, List.count_append, count_flatten_replicate]
    have hne : notSupportedMsg ≠ cancelMsg := by decide
    simp [List.count_cons]

theorem noReader_establishment_witness :
    sessionTrace { retry := some 1, retryDelay := none }
        (List.replicate 2 (AttemptSpec.respond
          { dataField := none, bodyField := none, selfStream := none })) none
      = [Action.request, Action.wait 1000, Action.request,
         Action.errorOut notSupportedMsg] := by
  have h := noReader_treated_as_establishment_failure 1 none
    { dataField := none, bodyField := none, selfStream := none } rfl
  exact h.1

/-- Claim C1 (counterexample): with `retry: 1` and a response that never
yields a usable reader, the request IS retried — two requests are issued
with a wait between them — contradicting "does not retry the request,
regardless of how many retry attempts remain". -/
theorem noReader_retry_counterexample :
    sessionTrace { retry := some 1 }
        [AttemptSpec.respond { dataField := none, bodyField := none, selfStream := none },
         AttemptSpec.respond { dataField := none, bodyField := none, selfStream := none }]
        none
      = [Action.request, Action.wait 1000, Action.request,
         Action.errorOut notSupportedMsg]
    ∧ (sessionTrace { retry := some 1 }
        [AttemptSpec.respond { dataField := none, bodyField := none, selfStream := none },
         AttemptSpec.respond { dataField := none, bodyField := none, selfStream := none }]
        none).count Action.request = 2 := by
  refine ⟨by decide, by decide⟩

theorem senAt_sub (c : Option Nat) (k : Nat) (a : Action)
    (ha : a ∈ senAt c k) : a = Action.errorOut cancelMsg := by
  unfold senAt at ha
  split at ha
  · simpa using ha
  · simp at ha

theorem pumpReads_no_wait (c : Option Nat) (ending : StreamEnd)
    (chunks : List (List Char)) : ∀ (k w : Nat),
    Action.wait w ∉ (pumpReads c ending k chunks).1 := by
  induction chunks with
  | nil =>
    intro k w hmem
    rw [pumpReads_nil_eq] at hmem
    split at hmem
    · exact absurd (senAt_sub c k _ hmem) (by simp)
    · cases ending <;> simp at hmem
  | cons ch rest ih =>
    intro k w hmem
    rw [pumpReads_cons_eq] at hmem
    split at hmem
    · exact absurd (senAt_sub c k _ hmem) (by simp)
    · rcases List.mem_cons.mp hmem with h | h
      · simp at h
      · exact ih (k + 1) w h

theorem runReq_wait_eq (maxR d : Nat) (c : Option Nat)
    (specs : List AttemptSpec) : ∀ (attempts k w : Nat),
    Action.wait w ∈ (runReq maxR d c attempts k specs).1 → w = d := by
  induction specs with
  | nil =>
    intro a k w h
    rw [runReq_nil_eq] at h
    split at h <;> simp at h
  | cons spec rest ih =>
    intro a k w h
    rw [runReq_cons_eq] at h
    split at h
    · simp at h
    · split at h
      · rcases List.mem_cons.mp h with h1 | h1
        · simp at h1
        · exact absurd (senAt_sub c k _ h1) (by simp)
      · split at h
        · simp at h
        · rcases List.mem_cons.mp h with h1 | h1
          · simp at h1
          · exact absurd h1 (pumpReads_no_wait c _ _ (k + 1) w)
        · split at h
          · rcases List.mem_cons.mp h with h1 | h1
            · simp at h1
            · rcases List.mem_cons.mp h1 with h2 | h2
              · simpa using h2
              · rcases List.mem_append.mp h2 with h3 | h3
                · exact absurd (senAt_sub c (k + 1) _ h3) (by simp)
                · exact ih (a + 1) (k + 2) w h3
          · simp at h

theorem session_wait_eq (opts : StreamOpts) (specs : List AttemptSpec)
    (c : Option Nat) (w : Nat) (h : Action.wait w ∈ sessionTrace opts specs c) :
    w = retryDelayOf opts.retryDelay := by
  unfold sessionTrace at h
  cases c with
  | none => exact runReq_wait_eq _ _ _ specs 0 0 w h
  | some t =>
    rw [show ∀ p, sessionAppend (some t) p =
        (if t < p.2 then p.1 else p.1 ++ [Action.errorOut cancelMsg])
      from fun p => rfl] at h
    split at h
    · exact runReq_wait_eq _ _ _ specs 0 0 w h
    · rcases List.mem_append.mp h with h1 | h1
      · exact runReq_wait_eq _ _ _ specs 0 0 w h1
      · simp at h1

theorem pumpReads_no_request (c : Option Nat) (ending : StreamEnd)
    (chunks : List (List Char)) : ∀ k : Nat,
    Action.request ∉ (pumpReads c ending k chunks).1 := by
  induction chunks with
  | nil =>
    intro k hmem
    rw [pumpReads_nil_eq] at hmem
    split at hmem
    · exact absurd (senAt_sub c k _ hmem) (by simp)
    · cases ending <;> simp at hmem
  | cons ch rest ih =>
    intro k hmem
    rw [pumpReads_cons_eq] at hmem
    split at hmem
    · exact absurd (senAt_sub c k _ hmem) (by simp)
    · rcases List.mem_cons.mp hmem with h | h
      · simp at h
      · exact ih (k + 1) h

theorem runReq_zero_request (d : Nat) (c : Option Nat)
    (specs : List AttemptSpec) (attempts k : Nat) :
    (runReq 0 d c attempts k specs).1.count Action.request ≤ 1 := by
  have hsen : ∀ j, (senAt c j).count Action.request = 0 := by
    intro j
    rw [List.count_eq_zero]
    intro hmem
    exact absurd (senAt_sub c j _ hmem) (by simp)
  cases specs with
  | nil =>
    rw [runReq_nil_eq]
    split <;> simp
  | cons spec rest =>
    rw [runReq_cons_eq]
    split
    · simp
    · split
      · simp [List.count_cons, hsen k]
      · split
        · simp
        · rename_i s heq
          have hp : (pumpReads c s.ending (k + 1) s.chunks).1.count
              Action.request = 0 := by
            rw [List.count_eq_zero]
            exact pumpReads_no_request c s.ending s.chunks (k + 1)
          simp [List.count_cons, hp]
        · rw [if_neg (by omega : ¬(attempts < 0))]
          simp

/-- Claim C8 (amended): the configured retry delay is honored only when
it is a positive number of milliseconds: every wait in every session
lasts `retryDelayOf` of the option, which is `d` for `d ≠ 0` but falls
back to 1000 when `retryDelay` is 0 (a falsy value under `||`) or
absent; when `retry` is absent the maximum number of retries is 0, so at
most one request is ever issued. -/
theorem retry_defaults (d : Nat) (hd : d ≠ 0) :
    retryDelayOf (some d) = d ∧
    retryDelayOf (some 0) = 1000 ∧
    retryDelayOf none = 1000 ∧
    maxRetriesOf none = 0 ∧
    (∀ (opts : StreamOpts) (specs : List AttemptSpec) (c : Option Nat) (w : Nat),
      Action.wait w ∈ sessionTrace opts specs c → w = retryDelayOf opts.retryDelay) ∧
    (∀ (dopt : Option Nat) (specs : List AttemptSpec) (c : Option Nat),
      (sessionTrace { retry := none, retryDelay := dopt } specs c).count
        Action.request ≤ 1) := by
  refine ⟨by simp [retryDelayOf, hd], rfl, rfl, rfl,
    fun opts specs c w h => session_wait_eq opts specs c w h, ?_⟩
  intro dopt specs c
  unfold sessionTrace
  rw [show maxRetriesOf ((⟨none, dopt⟩ : StreamOpts)).retry = 0 from rfl]
  cases c with
  | none => exact runReq_zero_request _ _ specs 0 0
  | some t =>
    rw [show ∀ p, sessionAppend (some t) p =
        (if t < p.2 then p.1 else p.1 ++ [Action.errorOut cancelMsg])
      from fun p => rfl]
    split
    · exact runReq_zero_request _ _ specs 0 0
    · rw [List.count_append]
      have h2 : [Action.errorOut cancelMsg].count Action.request = 0 := by decide
      rw [h2]
      simpa using runReq_zero_request (retryDelayOf dopt) (some t) specs 0 0

theorem retry_defaults_witness : retryDelayOf (some 7) = 7 :=
  (retry_defaults 7 (by decide)).1

/-- Claim C8 (counterexample): with `retryDelay: 0` the controller does
not wait 0 ms before the retry; `0 || 1000` is 1000 in JS, so it waits
1000 ms. -/
theorem retryDelay_zero_counterexample :
    sessionTrace { retry := some 1, retryDelay := some 0 }
        [AttemptSpec.throwErr (some ['a']), AttemptSpec.throwErr (some ['b'])] none
      = [Action.request, Action.wait 1000, Action.request, Action.errorOut ['b']]
    ∧ Action.wait 0 ∉ sessionTrace { retry := some 1, retryDelay := some 0 }
        [AttemptSpec.throwErr (some ['a']), AttemptSpec.throwErr (some ['b'])] none := by
  refine ⟨by decide, by decide⟩

/-! ## Stream controller: cancellation (C5) -/

theorem readFailHead_ne_cancel (m : List Char) : readFailHead ++ m ≠ cancelMsg := by
  intro h
  have h0 : (readFailHead ++ m).head? = cancelMsg.head? := by rw [h]
  have h1 : (readFailHead ++ m).head? = some 'R' := rfl
  have h2 : cancelMsg.head? = some 'S' := rfl
  rw [h1, h2] at h0
  exact absurd h0 (by decide)

theorem sentinel_shape_cons (x : Action) (hx : x ≠ Action.errorOut cancelMsg)
    (tr : List Action)
    (h : ∃ pre, tr = pre ++ [Action.errorOut cancelMsg] ∧
      Action.errorOut cancelMsg ∉ pre) :
    ∃ pre, x :: tr = pre ++ [Action.errorOut cancelMsg] ∧
      Action.errorOut cancelMsg ∉ pre := by
  obtain ⟨pre, hpre, hnot⟩ := h
  refine ⟨x :: pre, by rw [hpre]; rfl, ?_⟩
  intro hmem
  rcases List.mem_cons.mp hmem with h1 | h1
  · exact hx h1.symm
  · exact hnot h1

theorem notmem_cons {x : Action} {tr : List Action}
    (hx : Action.errorOut cancelMsg ≠ x)
    (h : Action.errorOut cancelMsg ∉ tr) :
    Action.errorOut cancelMsg ∉ x :: tr := by
  intro hmem
  rcases List.mem_cons.mp hmem with h1 | h1
  · exact hx h1
  · exact h h1

theorem pumpReads_cancel (t : Nat) (ending : StreamEnd)
    (chunks : List (List Char)) : ∀ k : Nat, k ≤ t →
    k ≤ (pumpReads (some t) ending k chunks).2 ∧
    (t < (pumpReads (some t) ending k chunks).2 →
      ∃ pre, (pumpReads (some t) ending k chunks).1 =
        pre ++ [Action.errorOut cancelMsg] ∧ Action.errorOut cancelMsg ∉ pre) ∧
    ((pumpReads (some t) ending k chunks).2 ≤ t →
      Action.errorOut cancelMsg ∉ (pumpReads (some t) ending k chunks).1) := by
  induction chunks with
  | nil =>
    intro k hk
    rw [pumpReads_nil_eq]
    by_cases hab : abortedAt (some t) k = true
    · have ht : t = k := by
        simp only [abortedAt, decide_eq_true_eq] at hab
        omega
      subst ht
      rw [if_pos hab]
      show t ≤ t + 1 ∧
        (t < t + 1 → ∃ pre, senAt (some t) t = pre ++ [Action.errorOut cancelMsg] ∧
          Action.errorOut cancelMsg ∉ pre) ∧
        (t + 1 ≤ t → Action.errorOut cancelMsg ∉ senAt (some t) t)
      exact ⟨by omega, fun _ => ⟨[], by simp [senAt], by simp⟩,
        fun hle => absurd hle (by omega)⟩
    · have hkt : k < t := by
        simp only [abortedAt, decide_eq_true_eq] at hab
        omega
      rw [if_neg hab]
      cases ending with
      | done =>
        show k ≤ k + 1 ∧
          (t < k + 1 → ∃ pre, [Action.completeOut] =
            pre ++ [Action.errorOut cancelMsg] ∧ Action.errorOut cancelMsg ∉ pre) ∧
          (k + 1 ≤ t → Action.errorOut cancelMsg ∉ [Action.completeOut])
        exact ⟨by omega, fun hlt => absurd hlt (by omega), fun _ => by simp⟩
      | readAbort =>
        show k ≤ k + 1 ∧
          (t < k + 1 → ∃ pre, ([] : List Action) =
            pre ++ [Action.errorOut cancelMsg] ∧ Action.errorOut cancelMsg ∉ pre) ∧
          (k + 1 ≤ t → Action.errorOut cancelMsg ∉ ([] : List Action))
        exact ⟨by omega, fun hlt => absurd hlt (by omega), fun _ => by simp⟩
      | readFail m =>
        show k ≤ k + 1 ∧
          (t < k + 1 → ∃ pre, [Action.errorOut (readFailHead ++ m)] =
            pre ++ [Action.errorOut cancelMsg] ∧ Action.errorOut cancelMsg ∉ pre) ∧
          (k + 1 ≤ t →
            Action.errorOut cancelMsg ∉ [Action.errorOut (readFailHead ++ m)])
        refine ⟨by omega, fun hlt => absurd hlt (by omega), fun _ => ?_⟩
        intro hmem
        simp only [List.mem_singleton, Action.errorOut.injEq] at hmem
        exact readFailHead_ne_cancel m hmem.symm
  | cons ch rest ih =>
    intro k hk
    rw [pumpReads_cons_eq]
    by_cases hab : abortedAt (some t) k = true
    · have ht : t = k := by
        simp only [abortedAt, decide_eq_true_eq] at hab
        omega
      subst ht
      rw [if_pos hab]
      show t ≤ t + 1 ∧
        (t < t + 1 → ∃ pre, senAt (some t) t = pre ++ [Action.errorOut cancelMsg] ∧
          Action.errorOut cancelMsg ∉ pre) ∧
        (t + 1 ≤ t → Action.errorOut cancelMsg ∉ senAt (some t) t)
      exact ⟨by omega, fun _ => ⟨[], by simp [senAt], by simp⟩,
        fun hle => absurd hle (by omega)⟩
    · have hkt : k < t := by
        simp only [abortedAt, decide_eq_true_eq] at hab
        omega
      rw [if_neg hab]
      obtain ⟨ih1, ih2, ih3⟩ := ih (k + 1) (by omega)
      show k ≤ (pumpReads (some t) ending (k + 1) rest).2 ∧
        (t < (pumpReads (some t) ending (k + 1) rest).2 →
          ∃ pre, Action.chunkOut ch :: (pumpReads (some t) ending (k + 1) rest).1 =
            pre ++ [Action.errorOut cancelMsg] ∧ Action.errorOut cancelMsg ∉ pre) ∧
        ((pumpReads (some t) ending (k + 1) rest).2 ≤ t →
          Action.errorOut cancelMsg ∉
            Action.chunkOut ch :: (pumpReads (some t) ending (k + 1) rest).1)
      refine ⟨by omega, ?_, ?_⟩
      · intro hlt
        exact sentinel_shape_cons _ (by simp) _ (ih2 hlt)
      · intro hle
        exact notmem_cons (by simp) (ih3 hle)

theorem errMsg_ne_cancel (spec : AttemptSpec) (rest : List AttemptSpec)
    (m : Option (List Char)) (hyg : hygienic (spec :: rest))
    (heq : attemptOutcome spec = Outcome.errOutcome m) :
    m.getD defaultFailMsg ≠ cancelMsg := by
  cases spec with
  | throwCanceled => simp [attemptOutcome] at heq
  | throwErr mm =>
    simp only [attemptOutcome, Outcome.errOutcome.injEq] at heq
    subst heq
    cases mm with
    | none => decide
    | some m0 =>
      have hh := hyg (AttemptSpec.throwErr (some m0)) (List.mem_cons_self _ _)
      simp only [specHygienic, decide_eq_true_eq] at hh
      simpa using hh
  | respond r =>
    have hm : m = some notSupportedMsg := by
      simp only [attemptOutcome] at heq
      cases hres : resolveStream r with
      | none =>
        rw [hres] at heq
        simpa using heq.symm
      | some s0 =>
        rw [hres] at heq
        by_cases hg : s0.hasGetReader = true
        · simp [hg] at heq
        · simp [hg] at heq
          exact heq.symm
    subst hm
    decide

theorem runReq_cancel (maxR d t : Nat) (specs : List AttemptSpec) :
    ∀ (attempts k : Nat), hygienic specs → k ≤ t →
    k ≤ (runReq maxR d (some t) attempts k specs).2 ∧
    (t < (runReq maxR d (some t) attempts k specs).2 →
      ∃ pre, (runReq maxR d (some t) attempts k specs).1 =
        pre ++ [Action.errorOut cancelMsg] ∧ Action.errorOut cancelMsg ∉ pre) ∧
    ((runReq maxR d (some t) attempts k specs).2 ≤ t →
      Action.errorOut cancelMsg ∉ (runReq maxR d (some t) attempts k specs).1) := by
  induction specs with
  | nil =>
    intro a k _ hk
    rw [runReq_nil_eq]
    split
    · rename_i habs
      simp only [abortedStrict, decide_eq_true_eq] at habs
      exact absurd hk (by omega)
    · show k ≤ k ∧
        (t < k → ∃ pre, [Action.request] = pre ++ [Action.errorOut cancelMsg] ∧
          Action.errorOut cancelMsg ∉ pre) ∧
        (k ≤ t → Action.errorOut cancelMsg ∉ [Action.request])
      exact ⟨by omega, fun hlt => absurd hlt (by omega), fun _ => by simp⟩
  | cons spec rest ih =>
    intro a k hyg hk
    have hygr : hygienic rest := fun sp hsp => hyg sp (List.mem_cons_of_mem _ hsp)
    rw [runReq_cons_eq]
    split
    · rename_i habs
      simp only [abortedStrict, decide_eq_true_eq] at habs
      exact absurd hk (by omega)
    · rename_i habs
      split
      · rename_i hab
        have ht : t = k := by
          simp only [abortedAt, decide_eq_true_eq] at hab
          omega
        subst ht
        show t ≤ t + 1 ∧
          (t < t + 1 → ∃ pre, Action.request :: senAt (some t) t =
            pre ++ [Action.errorOut cancelMsg] ∧ Action.errorOut cancelMsg ∉ pre) ∧
          (t + 1 ≤ t → Action.errorOut cancelMsg ∉ Action.request :: senAt (some t) t)
        exact ⟨by omega, fun _ => ⟨[Action.request], by simp [senAt], by simp⟩,
          fun hle => absurd hle (by omega)⟩
      · rename_i hab
        have hkt : k < t := by
          simp only [abortedAt, decide_eq_true_eq] at hab
          omega
        split
        · show k ≤ k + 1 ∧
            (t < k + 1 → ∃ pre, [Action.request] =
              pre ++ [Action.errorOut cancelMsg] ∧ Action.errorOut cancelMsg ∉ pre) ∧
            (k + 1 ≤ t → Action.errorOut cancelMsg ∉ [Action.request])
          exact ⟨by omega, fun hlt => absurd hlt (by omega), fun _ => by simp⟩
        · rename_i s heq
          obtain ⟨p1, p2, p3⟩ :=
            pumpReads_cancel t s.ending s.chunks (k + 1) (by omega)
          show k ≤ (pumpReads (some t) s.ending (k + 1) s.chunks).2 ∧
            (t < (pumpReads (some t) s.ending (k + 1) s.chunks).2 →
              ∃ pre, Action.request ::
                  (pumpReads (some t) s.ending (k + 1) s.chunks).1 =
                pre ++ [Action.errorOut cancelMsg] ∧
                Action.errorOut cancelMsg ∉ pre) ∧
            ((pumpReads (some t) s.ending (k + 1) s.chunks).2 ≤ t →
              Action.errorOut cancelMsg ∉
                Action.request :: (pumpReads (some t) s.ending (k + 1) s.chunks).1)
          refine ⟨by omega, ?_, ?_⟩
          · intro hlt
            exact sentinel_shape_cons _ (by simp) _ (p2 hlt)
          · intro hle
            exact notmem_cons (by simp) (p3 hle)
        · rename_i m heq
          split
          · rename_i hlt2
            by_cases hts : t = k + 1
            · subst hts
              have hR : runReq maxR d (some (k + 1)) (a + 1) (k + 2) rest =
                  ([], k + 2) := by
                cases rest with
                | nil =>
                  rw [runReq_nil_eq, if_pos (by
                    simp only [abortedStrict, decide_eq_true_eq]
                    omega)]
                | cons sp rs =>
                  rw [runReq_cons_eq, if_pos (by
                    simp only [abortedStrict, decide_eq_true_eq]
                    omega)]
              rw [hR]
              show k ≤ k + 2 ∧
                (k + 1 < k + 2 → ∃ pre, Action.request :: Action.wait d ::
                    (senAt (some (k + 1)) (k + 1) ++ []) =
                  pre ++ [Action.errorOut cancelMsg] ∧
                  Action.errorOut cancelMsg ∉ pre) ∧
                (k + 2 ≤ k + 1 → Action.errorOut cancelMsg ∉
                  Action.request :: Action.wait d ::
                    (senAt (some (k + 1)) (k + 1) ++ []))
              exact ⟨by omega, fun _ =>
                ⟨[Action.request, Action.wait d], by simp [senAt], by simp⟩,
                fun hle => absurd hle (by omega)⟩
            · obtain ⟨r1, r2, r3⟩ := ih (a + 1) (k + 2) hygr (by omega)
              have hsen : senAt (some t) (k + 1) = [] := by
                unfold senAt
                rw [if_neg (by simpa using hts)]
              rw [hsen]
              show k ≤ (runReq maxR d (some t) (a + 1) (k + 2) rest).2 ∧
                (t < (runReq maxR d (some t) (a + 1) (k + 2) rest).2 →
                  ∃ pre, Action.request :: Action.wait d ::
                      ([] ++ (runReq maxR d (some t) (a + 1) (k + 2) rest).1) =
                    pre ++ [Action.errorOut cancelMsg] ∧
                    Action.errorOut cancelMsg ∉ pre) ∧
                ((runReq maxR d (some t) (a + 1) (k + 2) rest).2 ≤ t →
                  Action.errorOut cancelMsg ∉
                    Action.request :: Action.wait d ::
                      ([] ++ (runReq maxR d (some t) (a + 1) (k + 2) rest).1))
              rw [List.nil_append]
              refine ⟨by omega, ?_, ?_⟩
              · intro hlt
                exact sentinel_shape_cons _ (by simp)
                  _ (sentinel_shape_cons _ (by simp) _ (r2 hlt))
              · intro hle
                exact notmem_cons (by simp) (notmem_cons (by simp) (r3 hle))
          · have hmsg := errMsg_ne_cancel spec rest m hyg heq
            show k ≤ k + 1 ∧
              (t < k + 1 → ∃ pre,
                Action.request :: [Action.errorOut (m.getD defaultFailMsg)] =
                  pre ++ [Action.errorOut cancelMsg] ∧
                  Action.errorOut cancelMsg ∉ pre) ∧
              (k + 1 ≤ t → Action.errorOut cancelMsg ∉
                Action.request :: [Action.errorOut (m.getD defaultFailMsg)])
            refine ⟨by omega, fun hlt => absurd hlt (by omega), fun _ => ?_⟩
            intro hmem
            rcases List.mem_cons.mp hmem with h1 | h1
            · simp at h1
            · simp only [List.mem_singleton, Action.errorOut.injEq] at h1
              exact hmsg h1.symm

/-- Claim C5: for every session and every cancellation instant, the
cancel function's `onError` with the fixed sentinel message is the LAST
action of the observable trace and occurs exactly once (assuming no
environment rejection message is literally the sentinel string).  In
particular, cancelling before any chunk arrived invokes `onError` exactly
once with the sentinel, and `onChunk` and `onComplete` are never invoked
afterward — nothing at all is. -/
theorem cancel_sentinel_last (opts : StreamOpts) (specs : List AttemptSpec)
    (t : Nat) (h : hygienic specs) :
    ∃ pre, sessionTrace opts specs (some t) =
      pre ++ [Action.errorOut cancelMsg] ∧
      Action.errorOut cancelMsg ∉ pre := by
  unfold sessionTrace
  obtain ⟨h1, h2, h3⟩ := runReq_cancel (maxRetriesOf opts.retry)
    (retryDelayOf opts.retryDelay) t specs 0 0 h (Nat.zero_le t)
  rw [show ∀ p, sessionAppend (some t) p =
      (if t < p.2 then p.1 else p.1 ++ [Action.errorOut cancelMsg])
    from fun p => rfl]
  split
  · rename_i hlt
    exact h2 hlt
  · rename_i hge
    exact ⟨_, rfl, h3 (by omega)⟩

theorem cancel_sentinel_last_witness :
    ∃ pre, sessionTrace {} [] (some 0) =
      pre ++ [Action.errorOut cancelMsg] ∧
      Action.errorOut cancelMsg ∉ pre :=
  cancel_sentinel_last {} [] 0 (fun sp hsp => absurd hsp (List.not_mem_nil sp))

end AxiosStream
